import Mathlib

/-!
# Row-band partitioning, transport and aggregation of `segment.cpp`

A shallow embedding of `main` of `src/segment.cpp`: the per-rank row planner
(lines 96-97 and its copies in the coordinator loops, lines 104-105 and
134-135), the distribute and collect phases (lines 102-114, 130-140), the
metrics capture (lines 116-127), the reductions of the gathered metrics (lines
143-162) and the control flow around them.

C++ `int` values are integers reduced to 32 bits by `wrap32`; `size_t`
values are naturals reduced modulo `2^64`.  `/` and `%` on `int` truncate
towards zero, which is `Int.tdiv` and `Int.tmod`.  The `double` arithmetic of
the averages (lines 156 and 160) is exact arithmetic followed by `fl`, the
rounding to 53 significant bits.
-/

namespace Segment

/-! ## Machine integers -/

/-- Two's-complement reduction of an integer to the range of a 32-bit `int`. -/
def wrap32 (x : Int) : Int := (x + 2147483648) % 4294967296 - 2147483648

/-- Reduction of a natural number to the range of a 64-bit `size_t`. -/
def wrap64 (x : Nat) : Nat := x % 18446744073709551616

/-! ## Partition planner (lines 96-97) -/

/-- Line 96: `int local_rows = rows / size + (rank < rows % size ? 1 : 0);` -/
def local_rows (rows size rank : Int) : Int :=
  wrap32 (Int.tdiv rows size + (if rank < Int.tmod rows size then 1 else 0))

/-- Line 97: `int start_row = (rows / size) * rank + std::min(rank, rows % size);` -/
def start_row (rows size rank : Int) : Int :=
  wrap32 (wrap32 (Int.tdiv rows size * rank) + min rank (Int.tmod rows size))

/-- The `int` expression `r * cols * elemSize` passed as the count of every
`MPI_Send` and `MPI_Recv` (lines 109, 113, 136, 139). -/
def byte_count (r cols elemSize : Int) : Int :=
  wrap32 (wrap32 (r * cols) * elemSize)

/-! ## Metrics capture (lines 116-127) -/

/-- Line 126: `size_t local_mem = mem_after > mem_before ? mem_after - mem_before : 0;`
with the subtraction taken in `size_t`. -/
def local_mem (mem_before mem_after : Nat) : Nat :=
  if mem_after > mem_before then wrap64 (mem_after + 18446744073709551616 - mem_before) else 0

/-- Line 127: `int local_cells = local_rows * cols;` for the given rank. -/
def local_cells (rows cols size rank : Int) : Int :=
  wrap32 (local_rows rows size rank * cols)

/-- The three scalars a rank contributes to the gathers of lines 147-149;
`local_time` is the clock difference `t1 - t0` in ticks. -/
structure Metrics where
  local_time : Int
  local_mem : Nat
  local_cells : Int
deriving DecidableEq, Repr

/-! ## Aggregation (lines 143-162) -/

/-- Line 149: the array `all_cells` the coordinator holds after `MPI_Gather`,
one `local_cells` per rank in rank order. -/
def all_cells (rows cols size : Int) : List Int :=
  (List.range size.toNat).map (fun (i : Nat) => local_cells rows cols size (i : Int))

/-- `std::accumulate` over `int` elements with an `int` accumulator. -/
def accumulate (l : List Int) (init : Int) : Int :=
  l.foldl (fun acc x => wrap32 (acc + x)) init

/-- Line 162: `int total_cells = std::accumulate(all_cells.begin(), all_cells.end(), 0);` -/
def total_cells (rows cols size : Int) : Int :=
  accumulate (all_cells rows cols size) 0

/-- What `cv::imread` hands to the coordinator and the broadcasts of lines
91-94 hand to everybody: the grid descriptor. -/
structure Image where
  rows : Int
  cols : Int
  type : Int
  elemSize : Int
deriving DecidableEq, Repr

/-- The externally visible steps of one rank, in program order.  `send` and
`recv` carry the row of the full grid the buffer pointer designates (`0` for
a local band), the count argument, the peer rank and the tag. -/
inductive Event where
  | usage
  | load_error
  | abort (code : Int)
  | finalize
  | bcast
  | copy_in (s r : Int)
  | send (row count dest tag : Int)
  | recv (row count source tag : Int)
  | barrier
  | segment_image (rows cols : Int)
  | copy_out (s r : Int)
  | gather
  | imwrite
deriving DecidableEq, Repr

/-- How a rank stops: by a `return` of `main`, or ended by `MPI_Abort`. -/
inductive Exit where
  | returned (code : Int)
  | aborted (code : Int)
deriving DecidableEq, Repr

/-- The exit code of the process. -/
def Exit.code : Exit → Int
  | Exit.returned c => c
  | Exit.aborted c => c

/-- A transport step: a band sent or received. -/
def Event.is_transport : Event → Bool
  | Event.send _ _ _ _ => true
  | Event.recv _ _ _ _ => true
  | _ => false

/-- The result of running `main` on one rank. -/
structure Outcome where
  events : List Event
  exit : Exit
  metrics : Option Metrics
deriving DecidableEq, Repr

/-- Lines 102-114, the distribute phase as seen by `rank`. -/
def distribute_events (rows cols elemSize size rank : Int) : List Event :=
  if rank = 0 then
    (List.range size.toNat).map (fun (i : Nat) =>
      let r := wrap32 (Int.tdiv rows size + (if (i : Int) < Int.tmod rows size then 1 else 0))
      let s := wrap32 (wrap32 (Int.tdiv rows size * (i : Int)) + min (i : Int) (Int.tmod rows size))
      if (i : Int) = 0 then Event.copy_in s r
      else Event.send s (byte_count r cols elemSize) (i : Int) 0)
  else
    [Event.recv 0 (byte_count (local_rows rows size rank) cols elemSize) 0 0]

/-- Lines 130-140, the collect phase as seen by `rank`. -/
def collect_events (rows cols elemSize size rank : Int) : List Event :=
  if rank = 0 then
    Event.copy_out (start_row rows size rank) (local_rows rows size rank) ::
    (List.range' 1 (size.toNat - 1)).map (fun (i : Nat) =>
      let r := wrap32 (Int.tdiv rows size + (if (i : Int) < Int.tmod rows size then 1 else 0))
      let s := wrap32 (wrap32 (Int.tdiv rows size * (i : Int)) + min (i : Int) (Int.tmod rows size))
      Event.recv s (byte_count r cols elemSize) (i : Int) 1)
  else
    [Event.send 0 (byte_count (local_rows rows size rank) cols elemSize) 0 1]

/-- The function `main` (lines 56-194) on one rank.  `img` is what `cv::imread`
returns on the coordinator (`none` for an empty matrix); `t0`, `t1` are the
clock readings of lines 118 and 124 and `mem_before`, `mem_after` the memory
readings of lines 119 and 123.  `MPI_Abort` does not return; a rank other
than the coordinator whose coordinator aborts never leaves the first
`MPI_Bcast` and is ended with the job. -/
def main (argc rank size : Int) (img : Option Image) (t0 t1 : Int)
    (mem_before mem_after : Nat) : Outcome :=
  if argc ≠ 6 then
    { events := (if rank = 0 then [Event.usage] else []) ++ [Event.finalize]
      exit := Exit.returned 1
      metrics := none }
  else
    match img with
    | none =>
      if rank = 0 then
        { events := [Event.load_error, Event.abort 1], exit := Exit.aborted 1, metrics := none }
      else
        { events := [], exit := Exit.aborted 1, metrics := none }
    | some d =>
      { events :=
          [Event.bcast, Event.bcast, Event.bcast, Event.bcast] ++
          distribute_events d.rows d.cols d.elemSize size rank ++
          [Event.barrier, Event.segment_image (local_rows d.rows size rank) d.cols] ++
          collect_events d.rows d.cols d.elemSize size rank ++
          [Event.gather, Event.gather, Event.gather] ++
          (if rank = 0 then [Event.imwrite] else []) ++
          [Event.finalize]
        exit := Exit.returned 0
        metrics := some
          { local_time := t1 - t0
            local_mem := local_mem mem_before mem_after
            local_cells := local_cells d.rows d.cols size rank } }

/-! ## Data flow of the distribute and collect phases -/

section Transport
variable {α : Type}

/-- Bytes per row of a continuous matrix, `Mat::step`. -/
def step (cols elemSize : Int) : Nat := cols.toNat * elemSize.toNat

/-- `Mat::ptr(row)`: the buffer from the first byte of `row` on. -/
def ptr (data : List α) (cols elemSize row : Int) : List α :=
  data.drop (row.toNat * step cols elemSize)

/-- Storage of a freshly constructed `cv::Mat(rows, cols, type)`: `rows * step`
bytes whose contents, `uninit`, are whatever the allocation held. -/
def alloc (uninit : Nat → α) (rows cols elemSize : Int) : List α :=
  (List.range (rows.toNat * step cols elemSize)).map uninit

/-- The message an `MPI_Send(buf, count, MPI_BYTE, ...)` puts on the wire: the
first `count` bytes of `buf`; a negative count is an error. -/
def MPI_Send (buf : List α) (count : Int) : Option (List α) :=
  if count < 0 then none else some (buf.take count.toNat)

/-- The buffer after `MPI_Recv(buf, count, MPI_BYTE, ...)` matched with message
`msg`: the message overwrites the head of the buffer; a negative count or a
message longer than `count` is an error. -/
def MPI_Recv (buf : List α) (count : Int) (msg : List α) : Option (List α) :=
  if count < 0 ∨ count.toNat < msg.length then none
  else some (msg ++ buf.drop msg.length)

/-- Lines 102-114 for one destination `i`: the contents of rank `i`'s
`local_input` after the distribute phase. -/
def distribute (rows cols elemSize size : Int) (input_img : List α)
    (uninit : Nat → Nat → α) (i : Nat) : Option (List α) :=
  let r := wrap32 (Int.tdiv rows size + (if (i : Int) < Int.tmod rows size then 1 else 0))
  let s := wrap32 (wrap32 (Int.tdiv rows size * (i : Int)) + min (i : Int) (Int.tmod rows size))
  if (i : Int) = 0 then
    some ((ptr input_img cols elemSize s).take (r.toNat * step cols elemSize))
  else
    match MPI_Send (ptr input_img cols elemSize s) (byte_count r cols elemSize) with
    | none => none
    | some msg =>
      MPI_Recv (alloc (uninit i) (local_rows rows size (i : Int)) cols elemSize)
        (byte_count (local_rows rows size (i : Int)) cols elemSize) msg

/-- The `local_input` buffers of ranks `0 .. n-1` after the distribute phase. -/
def distribute_all (rows cols elemSize size : Int) (input_img : List α)
    (uninit : Nat → Nat → α) : Nat → Option (List (List α))
  | 0 => some []
  | n + 1 =>
    match distribute_all rows cols elemSize size input_img uninit n,
      distribute rows cols elemSize size input_img uninit n with
    | some bands, some band => some (bands ++ [band])
    | _, _ => none

/-- Line 132: `local_output.copyTo(output_img.rowRange(start_row, start_row + local_rows))`.
The copy lands in `output_img` when `local_output` has the shape of the row
range; otherwise `copyTo` reallocates its destination header and `output_img`
is untouched. -/
def copy_to_rows (output_img local_output : List α) (cols elemSize start_row local_rows : Int) :
    List α :=
  if local_output.length = local_rows.toNat * step cols elemSize then
    output_img.take (start_row.toNat * step cols elemSize) ++ local_output ++
      output_img.drop (start_row.toNat * step cols elemSize + local_output.length)
  else output_img

/-- Lines 136 and 139 for one source `i`: rank `i` sends its `local_output`,
the coordinator receives it at `output_img.ptr(s)`. -/
def collect_one (rows cols elemSize size : Int) (output_img local_output : List α) (i : Nat) :
    Option (List α) :=
  let r := wrap32 (Int.tdiv rows size + (if (i : Int) < Int.tmod rows size then 1 else 0))
  let s := wrap32 (wrap32 (Int.tdiv rows size * (i : Int)) + min (i : Int) (Int.tmod rows size))
  match MPI_Send local_output
      (byte_count (local_rows rows size (i : Int)) cols elemSize) with
  | none => none
  | some msg =>
    match MPI_Recv (ptr output_img cols elemSize s) (byte_count r cols elemSize) msg with
    | none => none
    | some tail => some (output_img.take (s.toNat * step cols elemSize) ++ tail)

/-- Lines 130-137: `output_img` after the coordinator has stored its own band
and received the bands of ranks `1 .. n`. -/
def collect (rows cols elemSize size : Int) (local_outputs : List (List α)) (uninit : Nat → α) :
    Nat → Option (List α)
  | 0 =>
    some (copy_to_rows (alloc uninit rows cols elemSize) (local_outputs.getD 0 [])
      cols elemSize (start_row rows size 0) (local_rows rows size 0))
  | n + 1 =>
    match collect rows cols elemSize size local_outputs uninit n with
    | none => none
    | some output_img =>
      collect_one rows cols elemSize size output_img (local_outputs.getD (n + 1) []) (n + 1)

/-- Lines 102-140 across all ranks: distribute the bands of `input_img`, apply
the transform on every rank, collect into `output_img`.  `local_uninit i` is
the initial content of rank `i`'s `local_input`, `output_uninit` that of
`output_img`. -/
def run (rows cols elemSize size : Int) (transform : List α → List α) (input_img : List α)
    (local_uninit : Nat → Nat → α) (output_uninit : Nat → α) : Option (List α) :=
  match distribute_all rows cols elemSize size input_img local_uninit size.toNat with
  | none => none
  | some local_inputs =>
    collect rows cols elemSize size (local_inputs.map transform) output_uninit (size.toNat - 1)

/-- Rows `[start_row i, start_row i + local_rows i)` of the grid: the band of
rank `i`, as a run of `local_rows i * step` bytes. -/
def band (rows cols elemSize size : Int) (input_img : List α) (i : Nat) : List α :=
  (input_img.drop ((start_row rows size (i : Int)).toNat * step cols elemSize)).take
    ((local_rows rows size (i : Int)).toNat * step cols elemSize)

end Transport

/-! ## Planner lemmas -/

theorem wrap32_of_range {x : Int} (h0 : -2147483648 ≤ x) (h1 : x < 2147483648) :
    wrap32 x = x := by
  unfold wrap32
  omega

theorem wrap32_range (x : Int) : -2147483648 ≤ wrap32 x ∧ wrap32 x < 2147483648 := by
  unfold wrap32
  omega

/-- Quotient and remainder facts used throughout: `rows = size * b + m`. -/
theorem div_mod_facts {rows size : Int} (hr : 0 ≤ rows) (hs : 1 ≤ size) :
    Int.tdiv rows size = rows / size ∧ Int.tmod rows size = rows % size ∧
    0 ≤ rows / size ∧ 0 ≤ rows % size ∧ rows % size < size ∧
    (rows / size) * size + rows % size = rows := by
  have hs0 : (0 : Int) ≤ size := by omega
  have hs1 : (0 : Int) < size := by omega
  refine ⟨Int.tdiv_eq_ediv hr hs0, Int.tmod_eq_emod hr hs0, Int.ediv_nonneg hr hs0,
    Int.emod_nonneg _ (by omega), Int.emod_lt_of_pos _ hs1, ?_⟩
  have := Int.ediv_add_emod rows size
  linarith [mul_comm size (rows / size)]

/-- Within the `int` range the row count of line 96 is the exact quotient plus
the remainder bit. -/
theorem local_rows_eq {rows size rank : Int} (hr : 0 ≤ rows) (hr2 : rows < 2147483648)
    (hs : 1 ≤ size) (hk : 0 ≤ rank) :
    local_rows rows size rank = rows / size + (if rank < rows % size then 1 else 0) := by
  obtain ⟨h1, h2, h3, h4, h5, h6⟩ := div_mod_facts hr hs
  unfold local_rows
  rw [h1, h2]
  apply wrap32_of_range
  · split <;> omega
  · have hb : rows / size ≤ (rows / size) * size := by nlinarith
    split
    · have : rows / size + 1 ≤ rows := by omega
      omega
    · omega

/-- Within the `int` range the start row of line 97 is `b * rank + min rank m`. -/
theorem start_row_eq {rows size rank : Int} (hr : 0 ≤ rows) (hr2 : rows < 2147483648)
    (hs : 1 ≤ size) (hk : 0 ≤ rank) (hk2 : rank ≤ size) :
    start_row rows size rank = (rows / size) * rank + min rank (rows % size) := by
  obtain ⟨h1, h2, h3, h4, h5, h6⟩ := div_mod_facts hr hs
  have hb : (rows / size) * rank ≤ (rows / size) * size :=
    mul_le_mul_of_nonneg_left hk2 h3
  have hb0 : 0 ≤ (rows / size) * rank := mul_nonneg h3 hk
  have hin : wrap32 ((rows / size) * rank) = (rows / size) * rank :=
    wrap32_of_range (by omega) (by omega)
  unfold start_row
  rw [h1, h2, hin]
  apply wrap32_of_range
  · omega
  · omega

/-- Consecutive start rows differ by the row count of the lower band. -/
theorem start_row_succ {rows size i : Int} (hr : 0 ≤ rows) (hr2 : rows < 2147483648)
    (hs : 1 ≤ size) (hi : 0 ≤ i) (hi2 : i < size) :
    start_row rows size i + local_rows rows size i = start_row rows size (i + 1) := by
  rw [start_row_eq hr hr2 hs hi (by omega), start_row_eq hr hr2 hs (by omega) (by omega),
    local_rows_eq hr hr2 hs hi, mul_add, mul_one]
  split <;> omega

theorem start_row_zero {rows size : Int} (hr : 0 ≤ rows) (hr2 : rows < 2147483648)
    (hs : 1 ≤ size) : start_row rows size 0 = 0 := by
  obtain ⟨h1, h2, h3, h4, h5, h6⟩ := div_mod_facts hr hs
  rw [start_row_eq hr hr2 hs (le_refl 0) (by omega)]
  simp
  omega

theorem start_row_size {rows size : Int} (hr : 0 ≤ rows) (hr2 : rows < 2147483648)
    (hs : 1 ≤ size) : start_row rows size size = rows := by
  obtain ⟨h1, h2, h3, h4, h5, h6⟩ := div_mod_facts hr hs
  rw [start_row_eq hr hr2 hs (by omega) (le_refl _)]
  omega

theorem local_rows_nonneg {rows size i : Int} (hr : 0 ≤ rows) (hr2 : rows < 2147483648)
    (hs : 1 ≤ size) (hi : 0 ≤ i) : 0 ≤ local_rows rows size i := by
  obtain ⟨h1, h2, h3, h4, h5, h6⟩ := div_mod_facts hr hs
  rw [local_rows_eq hr hr2 hs hi]
  split <;> omega

theorem start_row_mono {rows size i j : Int} (hr : 0 ≤ rows) (hr2 : rows < 2147483648)
    (hs : 1 ≤ size) (hi : 0 ≤ i) (hij : i ≤ j) (hj : j ≤ size) :
    start_row rows size i ≤ start_row rows size j := by
  obtain ⟨h1, h2, h3, h4, h5, h6⟩ := div_mod_facts hr hs
  rw [start_row_eq hr hr2 hs hi (by omega), start_row_eq hr hr2 hs (by omega) hj]
  have hb : (rows / size) * i ≤ (rows / size) * j := mul_le_mul_of_nonneg_left hij h3
  omega

theorem start_row_le_rows {rows size i : Int} (hr : 0 ≤ rows) (hr2 : rows < 2147483648)
    (hs : 1 ≤ size) (hi : 0 ≤ i) (hi2 : i ≤ size) : start_row rows size i ≤ rows := by
  have := start_row_mono hr hr2 hs hi hi2 (le_refl size)
  rwa [start_row_size hr hr2 hs] at this

theorem start_row_nonneg {rows size i : Int} (hr : 0 ≤ rows) (hr2 : rows < 2147483648)
    (hs : 1 ≤ size) (hi : 0 ≤ i) (hi2 : i ≤ size) : 0 ≤ start_row rows size i := by
  have := start_row_mono hr hr2 hs (le_refl 0) hi hi2
  rwa [start_row_zero hr hr2 hs] at this

/-- The row counts of the first `n` ranks add up to the start row of rank `n`. -/
theorem sum_local_rows {rows size : Int} (hr : 0 ≤ rows) (hr2 : rows < 2147483648)
    (hs : 1 ≤ size) (n : Nat) (hn : (n : Int) ≤ size) :
    ((List.range n).map (fun i : Nat => local_rows rows size (i : Int))).sum =
      start_row rows size (n : Int) := by
  induction n with
  | zero => simp [start_row_zero hr hr2 hs]
  | succ k ih =>
    rw [List.sum_range_succ, ih (by omega)]
    have := start_row_succ hr hr2 hs (Int.natCast_nonneg k) (by omega : (k : Int) < size)
    push_cast
    exact this

/-- A value between the first and the last term of a sequence lies in one of
its steps. -/
theorem exists_step (f : Nat → Int) (x : Int) (n : Nat) (h0 : f 0 ≤ x) (hn : x < f n) :
    ∃ i, i < n ∧ f i ≤ x ∧ x < f (i + 1) := by
  induction n with
  | zero => omega
  | succ k ih =>
    by_cases hk : x < f k
    · obtain ⟨i, hi, h⟩ := ih hk
      exact ⟨i, by omega, h⟩
    · exact ⟨k, by omega, by omega, hn⟩

/-- Every row of the grid lies in the band of exactly one rank. -/
theorem row_in_one_band {rows size : Int} (hr : 0 ≤ rows) (hr2 : rows < 2147483648)
    (hs : 1 ≤ size) (row : Int) (h0 : 0 ≤ row) (h1 : row < rows) :
    ∃! i : Int, 0 ≤ i ∧ i < size ∧ start_row rows size i ≤ row ∧
      row < start_row rows size i + local_rows rows size i := by
  have hsz : ((size.toNat : Nat) : Int) = size := Int.toNat_of_nonneg (by omega)
  obtain ⟨k, hk, hk1, hk2⟩ := exists_step (fun n : Nat => start_row rows size (n : Int)) row
    size.toNat (by simp [start_row_zero hr hr2 hs, h0])
    (by simp only [hsz, start_row_size hr hr2 hs]; exact h1)
  have hk1 : start_row rows size (k : Int) ≤ row := hk1
  have hkz : (k : Int) < size := by omega
  refine ⟨(k : Int), ⟨Int.natCast_nonneg k, hkz, hk1, ?_⟩, ?_⟩
  · rw [start_row_succ hr hr2 hs (Int.natCast_nonneg k) hkz]
    simpa using hk2
  · rintro j ⟨hj0, hj1, hj2, hj3⟩
    rw [start_row_succ hr hr2 hs hj0 hj1] at hj3
    have hk3 : row < start_row rows size ((k : Int) + 1) := by simpa using hk2
    by_contra hne
    rcases lt_or_gt_of_ne hne with hlt | hgt
    · have := start_row_mono hr hr2 hs (by omega : (0 : Int) ≤ j + 1)
        (by omega : j + 1 ≤ (k : Int)) (by omega)
      omega
    · have := start_row_mono hr hr2 hs (by omega : (0 : Int) ≤ (k : Int) + 1)
        (by omega : (k : Int) + 1 ≤ j) (by omega)
      omega

/-- Within the `int` range and with a grid of fewer than `2^31` cells the
product of line 127 does not wrap. -/
theorem local_cells_eq {rows cols size i : Int} (hr : 0 ≤ rows) (hr2 : rows < 2147483648)
    (hs : 1 ≤ size) (hc : 0 ≤ cols) (hfit : rows * cols < 2147483648) (hi : 0 ≤ i)
    (hi2 : i < size) : local_cells rows cols size i = local_rows rows size i * cols := by
  have h1 := start_row_succ hr hr2 hs hi hi2
  have h2 := start_row_le_rows hr hr2 hs (by omega : (0 : Int) ≤ i + 1) (by omega)
  have h3 := start_row_nonneg hr hr2 hs hi (by omega : i ≤ size)
  have h4 : 0 ≤ local_rows rows size i := local_rows_nonneg hr hr2 hs hi
  have h5 : local_rows rows size i * cols ≤ rows * cols :=
    mul_le_mul_of_nonneg_right (by omega) hc
  have h6 : 0 ≤ local_rows rows size i * cols := mul_nonneg h4 hc
  unfold local_cells
  exact wrap32_of_range (by omega) (by omega)

/-- The running sum of line 162 after the first `n` ranks. -/
theorem accumulate_cells {rows cols size : Int} (hr : 0 ≤ rows) (hr2 : rows < 2147483648)
    (hs : 1 ≤ size) (hc : 0 ≤ cols) (hfit : rows * cols < 2147483648) (n : Nat)
    (hn : (n : Int) ≤ size) :
    accumulate ((List.range n).map (fun i : Nat => local_cells rows cols size (i : Int))) 0 =
      start_row rows size (n : Int) * cols := by
  induction n with
  | zero => simp [accumulate, start_row_zero hr hr2 hs]
  | succ k ih =>
    have ih := ih (by omega)
    unfold accumulate at ih ⊢
    rw [List.range_succ, List.map_append, List.foldl_append, ih]
    have hk : (k : Int) < size := by omega
    have h1 := start_row_succ hr hr2 hs (Int.natCast_nonneg k) hk
    have h2 := start_row_le_rows hr hr2 hs (by omega : (0 : Int) ≤ (k : Int) + 1) (by omega)
    have h3 := start_row_nonneg hr hr2 hs (by omega : (0 : Int) ≤ (k : Int) + 1)
      (by omega : (k : Int) + 1 ≤ size)
    have h5 : start_row rows size ((k : Int) + 1) * cols ≤ rows * cols :=
      mul_le_mul_of_nonneg_right h2 hc
    have h6 : 0 ≤ start_row rows size ((k : Int) + 1) * cols := mul_nonneg h3 hc
    simp only [List.map_cons, List.map_nil, List.foldl_cons, List.foldl_nil]
    rw [local_cells_eq hr hr2 hs hc hfit (Int.natCast_nonneg k) hk, ← add_mul, h1]
    push_cast
    exact wrap32_of_range (by omega) (by omega)

/-- The count expression `r * cols * elemSize` does not wrap when the product
fits an `int`. -/
theorem byte_count_eq {r cols elemSize : Int} (h0 : 0 ≤ r) (hc : 0 ≤ cols) (he : 0 ≤ elemSize)
    (hfit : r * cols * elemSize < 2147483648) :
    byte_count r cols elemSize = r * cols * elemSize := by
  have h1 : 0 ≤ r * cols := mul_nonneg h0 hc
  unfold byte_count
  rcases eq_or_lt_of_le he with h | h
  · subst h
    simp [wrap32]
  · have h2 : r * cols ≤ r * cols * elemSize := by nlinarith
    rw [wrap32_of_range (by omega : -2147483648 ≤ r * cols) (by omega)]
    exact wrap32_of_range (by nlinarith) hfit

/-- With every message band within the `int` range, the coordinator's
distribute loop is one local copy followed by one send per rank `k >= 1`, from
row `start_row k`, of exactly `local_rows k * cols * elemSize` bytes. -/
theorem distribute_events_coordinator {rows cols elemSize size : Int} (hr : 0 ≤ rows)
    (hr2 : rows < 2147483648) (hc : 0 ≤ cols) (he : 0 ≤ elemSize) (hs : 1 ≤ size)
    (hfit : ∀ j : Int, 1 ≤ j → j < size →
      local_rows rows size j * cols * elemSize < 2147483648) :
    distribute_events rows cols elemSize size 0 =
      (List.range size.toNat).map (fun (k : Nat) =>
        if (k : Int) = 0 then
          Event.copy_in (start_row rows size (k : Int)) (local_rows rows size (k : Int))
        else
          Event.send (start_row rows size (k : Int))
            (local_rows rows size (k : Int) * cols * elemSize) (k : Int) 0) := by
  unfold distribute_events
  rw [if_pos rfl]
  apply List.map_congr_left
  intro k hk
  rw [List.mem_range] at hk
  show (if (k : Int) = 0 then
      Event.copy_in (start_row rows size (k : Int)) (local_rows rows size (k : Int))
    else Event.send (start_row rows size (k : Int))
      (byte_count (local_rows rows size (k : Int)) cols elemSize) (k : Int) 0) = _
  by_cases hk0 : (k : Int) = 0
  · rw [if_pos hk0, if_pos hk0]
  · rw [if_neg hk0, if_neg hk0,
      byte_count_eq (local_rows_nonneg hr hr2 hs (Int.natCast_nonneg k)) hc he
        (hfit k (by omega) (by omega))]

/-- With every message band within the `int` range, the coordinator's collect
phase is one local copy followed by one receive per rank `k >= 1`, at row
`start_row k`, of exactly `local_rows k * cols * elemSize` bytes. -/
theorem collect_events_coordinator {rows cols elemSize size : Int} (hr : 0 ≤ rows)
    (hr2 : rows < 2147483648) (hc : 0 ≤ cols) (he : 0 ≤ elemSize) (hs : 1 ≤ size)
    (hfit : ∀ j : Int, 1 ≤ j → j < size →
      local_rows rows size j * cols * elemSize < 2147483648) :
    collect_events rows cols elemSize size 0 =
      Event.copy_out (start_row rows size 0) (local_rows rows size 0) ::
      (List.range' 1 (size.toNat - 1)).map (fun (k : Nat) =>
        Event.recv (start_row rows size (k : Int))
          (local_rows rows size (k : Int) * cols * elemSize) (k : Int) 1) := by
  unfold collect_events
  rw [if_pos rfl]
  congr 1
  apply List.map_congr_left
  intro k hk
  rw [List.mem_range'_1] at hk
  show Event.recv (start_row rows size (k : Int))
      (byte_count (local_rows rows size (k : Int)) cols elemSize) (k : Int) 1 = _
  rw [byte_count_eq (local_rows_nonneg hr hr2 hs (Int.natCast_nonneg k)) hc he
    (hfit k (by omega) (by omega))]

/-- Every message of the coordinator goes to, or comes from, a rank
`1 <= peer < size`, designates row `start_row peer` and has the count of that
rank's band; sends carry tag 0 and receives tag 1. -/
theorem coordinator_message {rows cols elemSize size : Int} (e : Event)
    (he : e ∈ distribute_events rows cols elemSize size 0 ∨
      e ∈ collect_events rows cols elemSize size 0) :
    (∀ row count dest tag, e = Event.send row count dest tag →
      1 ≤ dest ∧ dest < size ∧ row = start_row rows size dest ∧
      count = byte_count (local_rows rows size dest) cols elemSize ∧ tag = 0) ∧
    (∀ row count source tag, e = Event.recv row count source tag →
      1 ≤ source ∧ source < size ∧ row = start_row rows size source ∧
      count = byte_count (local_rows rows size source) cols elemSize ∧ tag = 1) := by
  rcases he with he | he
  · unfold distribute_events at he
    rw [if_pos rfl, List.mem_map] at he
    obtain ⟨k, hk1, hk⟩ := he
    rw [List.mem_range] at hk1
    by_cases hk0 : (k : Int) = 0
    · simp only [hk0, if_true] at hk
      subst hk
      exact ⟨fun _ _ _ _ h => (by cases h), fun _ _ _ _ h => (by cases h)⟩
    · simp only [if_neg hk0] at hk
      subst hk
      refine ⟨fun row count dest tag h => ?_, fun _ _ _ _ h => (by cases h)⟩
      injection h with h1 h2 h3 h4
      subst h3
      exact ⟨by omega, by omega, h1.symm, h2.symm, h4.symm⟩
  · unfold collect_events at he
    rw [if_pos rfl, List.mem_cons, List.mem_map] at he
    rcases he with he | ⟨k, hk1, hk⟩
    · subst he
      exact ⟨fun _ _ _ _ h => (by cases h), fun _ _ _ _ h => (by cases h)⟩
    · rw [List.mem_range'_1] at hk1
      subst hk
      refine ⟨fun _ _ _ _ h => (by cases h), fun row count source tag h => ?_⟩
      injection h with h1 h2 h3 h4
      subst h3
      exact ⟨by omega, by omega, h1.symm, h2.symm, h4.symm⟩

/-! ## Transport lemmas -/

section TransportLemmas
variable {α : Type}

theorem MPI_Send_natCast (buf : List α) (c : Nat) :
    MPI_Send buf (c : Int) = some (buf.take c) := by
  simp [MPI_Send]

theorem MPI_Recv_natCast (buf msg : List α) (c : Nat) (h : msg.length ≤ c) :
    MPI_Recv buf (c : Int) msg = some (msg ++ buf.drop msg.length) := by
  have h2 : ¬ ((c : Int) < 0 ∨ ((c : Int)).toNat < msg.length) := by
    simp only [Int.toNat_ofNat]
    omega
  simp only [MPI_Recv, if_neg h2]

theorem length_alloc (uninit : Nat → α) (rows cols elemSize : Int) :
    (alloc uninit rows cols elemSize).length = rows.toNat * step cols elemSize := by
  simp [alloc]

/-- Start rows as naturals: each band ends where the next one starts. -/
theorem start_row_toNat_succ {rows size : Int} (hr : 0 ≤ rows) (hr2 : rows < 2147483648)
    (hs : 1 ≤ size) (k : Nat) (hk : (k : Int) < size) :
    (start_row rows size (k : Int)).toNat + (local_rows rows size (k : Int)).toNat =
      (start_row rows size ((k + 1 : Nat) : Int)).toNat := by
  have h1 := start_row_succ hr hr2 hs (Int.natCast_nonneg k) hk
  have h2 := start_row_nonneg hr hr2 hs (Int.natCast_nonneg k) (by omega : (k : Int) ≤ size)
  have h3 : 0 ≤ local_rows rows size (k : Int) :=
    local_rows_nonneg hr hr2 hs (Int.natCast_nonneg k)
  push_cast
  rw [← h1, Int.toNat_add h2 h3]

theorem start_row_toNat_le {rows size : Int} (hr : 0 ≤ rows) (hr2 : rows < 2147483648)
    (hs : 1 ≤ size) (k : Nat) (hk : (k : Int) ≤ size) :
    (start_row rows size (k : Int)).toNat ≤ rows.toNat := by
  have := start_row_le_rows hr hr2 hs (Int.natCast_nonneg k) hk
  omega

/-- The count of a band whose byte size fits an `int`, as a natural number. -/
theorem byte_count_natCast {rows cols elemSize size : Int} (hr : 0 ≤ rows)
    (hr2 : rows < 2147483648) (hc : 0 ≤ cols) (he : 0 ≤ elemSize) (hs : 1 ≤ size) (k : Nat)
    (hfit : local_rows rows size (k : Int) * cols * elemSize < 2147483648) :
    byte_count (local_rows rows size (k : Int)) cols elemSize =
      (((local_rows rows size (k : Int)).toNat * step cols elemSize : Nat) : Int) := by
  have h3 : 0 ≤ local_rows rows size (k : Int) :=
    local_rows_nonneg hr hr2 hs (Int.natCast_nonneg k)
  rw [byte_count_eq h3 hc he hfit]
  unfold step
  push_cast
  rw [Int.toNat_of_nonneg h3, Int.toNat_of_nonneg hc, Int.toNat_of_nonneg he, mul_assoc]

/-- The band of a rank below `size` has exactly `local_rows * step` bytes. -/
theorem length_band {rows cols elemSize size : Int} (hr : 0 ≤ rows) (hr2 : rows < 2147483648)
    (hs : 1 ≤ size) (input_img : List α)
    (hlen : input_img.length = rows.toNat * step cols elemSize) (k : Nat)
    (hk : (k : Int) < size) :
    (band rows cols elemSize size input_img k).length =
      (local_rows rows size (k : Int)).toNat * step cols elemSize := by
  have h1 := start_row_toNat_succ hr hr2 hs k hk
  have h2 := start_row_toNat_le hr hr2 hs (k + 1) (by push_cast; omega)
  have h3 : (start_row rows size (k : Int)).toNat * step cols elemSize +
      (local_rows rows size (k : Int)).toNat * step cols elemSize ≤
      rows.toNat * step cols elemSize := by
    rw [← Nat.add_mul, h1]
    exact Nat.mul_le_mul_right _ h2
  unfold band
  rw [List.length_take, List.length_drop, hlen]
  omega

/-- The distribute phase hands every rank below `size` its band. -/
theorem distribute_eq {rows cols elemSize size : Int} (hr : 0 ≤ rows) (hr2 : rows < 2147483648)
    (hc : 0 ≤ cols) (he : 0 ≤ elemSize) (hs : 1 ≤ size) (input_img : List α)
    (uninit : Nat → Nat → α) (hlen : input_img.length = rows.toNat * step cols elemSize)
    (hfit : ∀ i : Int, 1 ≤ i → i < size →
      local_rows rows size i * cols * elemSize < 2147483648)
    (k : Nat) (hk : (k : Int) < size) :
    distribute rows cols elemSize size input_img uninit k =
      some (band rows cols elemSize size input_img k) := by
  have hunf : distribute rows cols elemSize size input_img uninit k =
      if (k : Int) = 0 then
        some ((ptr input_img cols elemSize (start_row rows size (k : Int))).take
          ((local_rows rows size (k : Int)).toNat * step cols elemSize))
      else
        match MPI_Send (ptr input_img cols elemSize (start_row rows size (k : Int)))
            (byte_count (local_rows rows size (k : Int)) cols elemSize) with
        | none => none
        | some msg =>
          MPI_Recv (alloc (uninit k) (local_rows rows size (k : Int)) cols elemSize)
            (byte_count (local_rows rows size (k : Int)) cols elemSize) msg := rfl
  rw [hunf]
  by_cases hk0 : (k : Int) = 0
  · rw [if_pos hk0]
    rfl
  · rw [if_neg hk0]
    have hb := length_band hr hr2 hs input_img hlen k hk
    rw [byte_count_natCast hr hr2 hc he hs k (hfit k (by omega) hk), MPI_Send_natCast]
    have hmsg : (ptr input_img cols elemSize (start_row rows size (k : Int))).take
        ((local_rows rows size (k : Int)).toNat * step cols elemSize) =
        band rows cols elemSize size input_img k := rfl
    simp only [hmsg]
    rw [MPI_Recv_natCast _ _ _ (le_of_eq hb), List.drop_eq_nil_of_le, List.append_nil]
    rw [length_alloc, hb]

theorem distribute_all_eq {rows cols elemSize size : Int} (hr : 0 ≤ rows)
    (hr2 : rows < 2147483648) (hc : 0 ≤ cols) (he : 0 ≤ elemSize) (hs : 1 ≤ size)
    (input_img : List α) (uninit : Nat → Nat → α)
    (hlen : input_img.length = rows.toNat * step cols elemSize)
    (hfit : ∀ i : Int, 1 ≤ i → i < size →
      local_rows rows size i * cols * elemSize < 2147483648)
    (n : Nat) (hn : (n : Int) ≤ size) :
    distribute_all rows cols elemSize size input_img uninit n =
      some ((List.range n).map (band rows cols elemSize size input_img)) := by
  induction n with
  | zero => rfl
  | succ m ih =>
    unfold distribute_all
    rw [ih (by omega), distribute_eq hr hr2 hc he hs input_img uninit hlen hfit m (by omega)]
    simp [List.range_succ]

/-- The transformed bands of ranks `0 .. m-1`, one after the other, have as
many bytes as the rows above `start_row m`. -/
theorem length_bands {rows cols elemSize size : Int} (hr : 0 ≤ rows) (hr2 : rows < 2147483648)
    (hs : 1 ≤ size) (transform : List α → List α)
    (hshape : ∀ l, (transform l).length = l.length) (input_img : List α)
    (hlen : input_img.length = rows.toNat * step cols elemSize) (m : Nat)
    (hm : (m : Int) ≤ size) :
    ((List.range m).flatMap
        (fun k => transform (band rows cols elemSize size input_img k))).length =
      (start_row rows size (m : Int)).toNat * step cols elemSize := by
  induction m with
  | zero => simp [start_row_zero hr hr2 hs]
  | succ k ih =>
    rw [List.range_succ, List.flatMap_append, List.length_append, ih (by omega),
      List.flatMap_singleton, hshape, length_band hr hr2 hs input_img hlen k (by omega),
      ← Nat.add_mul, start_row_toNat_succ hr hr2 hs k (by omega)]

/-- One round of the collect loop replaces the rows of rank `k` and leaves the
rest of `output_img` as it was. -/
theorem collect_one_eq {rows cols elemSize size : Int} (hr : 0 ≤ rows) (hr2 : rows < 2147483648)
    (hc : 0 ≤ cols) (he : 0 ≤ elemSize) (hs : 1 ≤ size) (k : Nat)
    (hfit : local_rows rows size (k : Int) * cols * elemSize < 2147483648)
    (done rest local_output : List α)
    (hdone : done.length = (start_row rows size (k : Int)).toNat * step cols elemSize)
    (hout : local_output.length = (local_rows rows size (k : Int)).toNat * step cols elemSize) :
    collect_one rows cols elemSize size (done ++ rest) local_output k =
      some (done ++ local_output ++
        rest.drop ((local_rows rows size (k : Int)).toNat * step cols elemSize)) := by
  have hunf : collect_one rows cols elemSize size (done ++ rest) local_output k =
      match MPI_Send local_output
          (byte_count (local_rows rows size (k : Int)) cols elemSize) with
      | none => none
      | some msg =>
        match MPI_Recv (ptr (done ++ rest) cols elemSize (start_row rows size (k : Int)))
            (byte_count (local_rows rows size (k : Int)) cols elemSize) msg with
        | none => none
        | some tail =>
          some ((done ++ rest).take
            ((start_row rows size (k : Int)).toNat * step cols elemSize) ++ tail) := rfl
  rw [hunf, byte_count_natCast hr hr2 hc he hs k hfit, MPI_Send_natCast,
    List.take_of_length_le (le_of_eq hout)]
  simp only []
  rw [MPI_Recv_natCast _ _ _ (le_of_eq hout)]
  simp only [ptr]
  rw [← hdone, List.drop_left, List.take_left, hout, List.append_assoc]

/-- The output grid after the coordinator has stored its own band and received
those of ranks `1 .. m`: the transformed bands of ranks `0 .. m`, followed by
the untouched rest of the allocation. -/
theorem collect_eq {rows cols elemSize size : Int} (hr : 0 ≤ rows) (hr2 : rows < 2147483648)
    (hc : 0 ≤ cols) (he : 0 ≤ elemSize) (hs : 1 ≤ size) (transform : List α → List α)
    (hshape : ∀ l, (transform l).length = l.length) (input_img : List α) (uninit : Nat → α)
    (hlen : input_img.length = rows.toNat * step cols elemSize)
    (hfit : ∀ i : Int, 1 ≤ i → i < size →
      local_rows rows size i * cols * elemSize < 2147483648)
    (n : Nat) (hn : (n : Int) ≤ size) (m : Nat) (hm : m < n) :
    collect rows cols elemSize size
        ((List.range n).map (fun k => transform (band rows cols elemSize size input_img k)))
        uninit m =
      some ((List.range (m + 1)).flatMap
          (fun k => transform (band rows cols elemSize size input_img k)) ++
        (alloc uninit rows cols elemSize).drop
          ((start_row rows size ((m + 1 : Nat) : Int)).toNat * step cols elemSize)) := by
  have hget : ∀ k, k < n →
      ((List.range n).map
        (fun k => transform (band rows cols elemSize size input_img k))).getD k [] =
        transform (band rows cols elemSize size input_img k) := by
    intro k hk
    simp [List.getD_eq_getElem?_getD, hk]
  induction m with
  | zero =>
    have h0 := length_band hr hr2 hs input_img hlen 0 (by push_cast; omega)
    have h1 := start_row_toNat_succ hr hr2 hs 0 (by push_cast; omega)
    have hz : (start_row rows size ((0 : Nat) : Int)).toNat = 0 := by
      simp [start_row_zero hr hr2 hs]
    rw [hz, Nat.zero_add] at h1
    unfold collect
    rw [hget 0 hm]
    unfold copy_to_rows
    have hz2 : (start_row rows size 0).toNat = 0 := by simp [start_row_zero hr hr2 hs]
    have h0b : (transform (band rows cols elemSize size input_img 0)).length =
        (local_rows rows size 0).toNat * step cols elemSize := by
      rw [hshape]
      exact h0
    rw [if_pos h0b, hz2, h0b]
    simp only [Nat.zero_mul, List.take_zero, List.nil_append, Nat.zero_add]
    have h1b : (local_rows rows size 0).toNat = (start_row rows size ((0 + 1 : Nat) : Int)).toNat :=
      h1
    rw [h1b]
    simp [List.range_succ]
  | succ j ih =>
    have hj : ((j + 1 : Nat) : Int) < size := by omega
    unfold collect
    rw [ih (by omega)]
    simp only []
    rw [hget (j + 1) hm]
    have hdone := length_bands hr hr2 hs transform hshape input_img hlen (j + 1) (by omega)
    have hout : (transform (band rows cols elemSize size input_img (j + 1))).length =
        (local_rows rows size ((j + 1 : Nat) : Int)).toNat * step cols elemSize := by
      rw [hshape]
      exact length_band hr hr2 hs input_img hlen (j + 1) hj
    rw [collect_one_eq hr hr2 hc he hs (j + 1) (hfit _ (by push_cast; omega) hj) _ _ _
      hdone hout, List.drop_drop, ← Nat.add_mul,
      start_row_toNat_succ hr hr2 hs (j + 1) hj]
    rw [List.range_succ (j + 1), List.flatMap_append, List.flatMap_singleton]

/-- The bands of ranks `0 .. m-1`, one after the other, are the rows of the
grid above `start_row m`. -/
theorem bands_eq_take {rows cols elemSize size : Int} (hr : 0 ≤ rows) (hr2 : rows < 2147483648)
    (hs : 1 ≤ size) (input_img : List α) (m : Nat) (hm : (m : Int) ≤ size) :
    (List.range m).flatMap (fun k => band rows cols elemSize size input_img k) =
      input_img.take ((start_row rows size (m : Int)).toNat * step cols elemSize) := by
  induction m with
  | zero => simp [start_row_zero hr hr2 hs]
  | succ k ih =>
    rw [List.range_succ, List.flatMap_append, ih (by omega), List.flatMap_singleton,
      ← start_row_toNat_succ hr hr2 hs k (by omega), Nat.add_mul, List.take_add]
    rfl

/-- With two ranks on a 40000 x 40000 grid of 3-byte elements the send to
rank 1 has a negative count, whatever the contents of the grid. -/
theorem run_none_of_negative_count (transform : List α → List α) (input_img : List α)
    (uninit : Nat → Nat → α) (output_uninit : Nat → α) :
    run 40000 40000 3 2 transform input_img uninit output_uninit = none := by
  have h1 : distribute 40000 40000 3 2 input_img uninit 1 = none := by
    have hc : byte_count (wrap32 (Int.tdiv 40000 2 +
        (if ((1 : Nat) : Int) < Int.tmod 40000 2 then 1 else 0))) 40000 3 < 0 := by decide
    have h10 : ¬ (((1 : Nat) : Int) = 0) := by decide
    simp only [distribute, MPI_Send, hc, if_true, if_neg h10]
  have h2 : distribute_all 40000 40000 3 2 input_img uninit 2 = none := by
    simp only [distribute_all, h1]
    split <;> simp_all
  have h3 : (2 : Int).toNat = 2 := rfl
  simp only [run, h3, h2]

end TransportLemmas

/-! ## Aggregation lemmas -/

/-- C1: for `0 <= rows` and `1 <= size` (both of type `int`) the bands of lines
96-97 are a contiguous, gap-free, non-overlapping cover of `[0, rows)` in rank
order: the first band starts at row 0, each band ends where the next one
starts, the last band ends at `rows`, the row counts add up to `rows`, no
count is negative, and every row lies in the band of exactly one rank. -/
theorem planner_cover (rows size : Int) (hr : 0 ≤ rows) (hr2 : rows < 2147483648)
    (hs : 1 ≤ size) :
    start_row rows size 0 = 0 ∧
    (∀ i : Int, 0 ≤ i → i < size - 1 →
      start_row rows size i + local_rows rows size i = start_row rows size (i + 1)) ∧
    start_row rows size (size - 1) + local_rows rows size (size - 1) = rows ∧
    ((List.range size.toNat).map (fun i : Nat => local_rows rows size (i : Int))).sum = rows ∧
    (∀ i : Int, 0 ≤ i → i < size → 0 ≤ local_rows rows size i) ∧
    (∀ i j : Int, 0 ≤ i → i ≤ j → j < size → start_row rows size i ≤ start_row rows size j) ∧
    (∀ row : Int, 0 ≤ row → row < rows →
      ∃! i : Int, 0 ≤ i ∧ i < size ∧ start_row rows size i ≤ row ∧
        row < start_row rows size i + local_rows rows size i) := by
  have hsz : ((size.toNat : Nat) : Int) = size := Int.toNat_of_nonneg (by omega)
  refine ⟨start_row_zero hr hr2 hs, ?_, ?_, ?_, ?_, ?_, ?_⟩
  · intro i hi hi2
    exact start_row_succ hr hr2 hs hi (by omega)
  · have := start_row_succ hr hr2 hs (by omega : (0 : Int) ≤ size - 1) (by omega)
    rw [this, sub_add_cancel, start_row_size hr hr2 hs]
  · rw [sum_local_rows hr hr2 hs size.toNat (by omega), hsz, start_row_size hr hr2 hs]
  · intro i hi _
    exact local_rows_nonneg hr hr2 hs hi
  · intro i j hi hij hj
    exact start_row_mono hr hr2 hs hi hij (by omega)
  · intro row h0 h1
    exact row_in_one_band hr hr2 hs row h0 h1

/-- Witness of `planner_cover` at `rows = 10`, `size = 3`. -/
theorem planner_cover_witness :
    ((0 : Int) ≤ 10 ∧ (10 : Int) < 2147483648 ∧ (1 : Int) ≤ 3) ∧
    start_row 10 3 0 = 0 ∧
    (∀ i : Int, 0 ≤ i → i < 3 - 1 →
      start_row 10 3 i + local_rows 10 3 i = start_row 10 3 (i + 1)) ∧
    start_row 10 3 (3 - 1) + local_rows 10 3 (3 - 1) = 10 ∧
    ((List.range (3 : Int).toNat).map (fun i : Nat => local_rows 10 3 (i : Int))).sum = 10 ∧
    (∀ i : Int, 0 ≤ i → i < 3 → 0 ≤ local_rows 10 3 i) ∧
    (∀ i j : Int, 0 ≤ i → i ≤ j → j < 3 → start_row 10 3 i ≤ start_row 10 3 j) ∧
    (∀ row : Int, 0 ≤ row → row < 10 →
      ∃! i : Int, 0 ≤ i ∧ i < 3 ∧ start_row 10 3 i ≤ row ∧
        row < start_row 10 3 i + local_rows 10 3 i) :=
  ⟨by decide, planner_cover 10 3 (by decide) (by decide) (by decide)⟩

/-- C2: for `0 <= rows`, `1 <= size` and ranks `i`, `j` (below `size` or not),
rank `i` gets `rows / size + 1` rows when `i < rows % size` and `rows / size` rows
otherwise, so two row counts differ by at most one; for `rows = 10`,
`size = 3` the `(start_row, local_rows)` pairs are `(0,4)`, `(4,3)`, `(7,3)`. -/
theorem planner_balanced (rows size i j : Int) (hr : 0 ≤ rows) (hr2 : rows < 2147483648)
    (hs : 1 ≤ size) (hi : 0 ≤ i) (hj : 0 ≤ j) :
    local_rows rows size i = (if i < rows % size then rows / size + 1 else rows / size) ∧
    |local_rows rows size i - local_rows rows size j| ≤ 1 ∧
    [(start_row 10 3 0, local_rows 10 3 0), (start_row 10 3 1, local_rows 10 3 1),
      (start_row 10 3 2, local_rows 10 3 2)] = [(0, 4), (4, 3), (7, 3)] := by
  refine ⟨?_, ?_, by decide⟩
  · rw [local_rows_eq hr hr2 hs hi]
    split <;> simp
  · rw [local_rows_eq hr hr2 hs hi, local_rows_eq hr hr2 hs hj, abs_le]
    constructor <;> split <;> split <;> omega

/-- Witness of `planner_balanced` at `rows = 10`, `size = 3`, ranks 0 and 2. -/
theorem planner_balanced_witness :
    ((0 : Int) ≤ 10 ∧ (10 : Int) < 2147483648 ∧ (1 : Int) ≤ 3 ∧ (0 : Int) ≤ 0 ∧ (0 : Int) ≤ 2) ∧
    local_rows 10 3 0 = (if (0 : Int) < 10 % 3 then 10 / 3 + 1 else 10 / 3) ∧
    |local_rows 10 3 0 - local_rows 10 3 2| ≤ 1 ∧
    [(start_row 10 3 0, local_rows 10 3 0), (start_row 10 3 1, local_rows 10 3 1),
      (start_row 10 3 2, local_rows 10 3 2)] = [(0, 4), (4, 3), (7, 3)] :=
  ⟨by decide,
   planner_balanced 10 3 0 2 (by decide) (by decide) (by decide) (by decide) (by decide)⟩

/-! ## Aggregation -/

/-- C4, as stated, fails: a grid of 50000 x 50000 three-byte cells split over
four ranks has message bands of 1875000000 bytes, a count that fits an `int`,
and local cell counts of 625000000, but their `int` sum of line 162 is
-1794967296, not `rows * cols`. -/
theorem total_cells_counterexample :
    byte_count (local_rows 50000 4 1) 50000 3 = 1875000000 ∧
    byte_count (local_rows 50000 4 2) 50000 3 = 1875000000 ∧
    byte_count (local_rows 50000 4 3) 50000 3 = 1875000000 ∧
    all_cells 50000 50000 4 = [625000000, 625000000, 625000000, 625000000] ∧
    total_cells 50000 50000 4 = -1794967296 ∧
    total_cells 50000 50000 4 ≠ 50000 * 50000 := by
  decide

/-- C4, amended: for `0 <= rows`, `0 <= cols`, `1 <= size` and a grid of at most
`2^31 - 1` cells, `total_cells` of line 162 — the `int` sum over all ranks of
`local_cells = local_rows * cols` — equals `rows * cols`, whatever `size` is. -/
theorem total_cells_eq (rows cols size : Int) (hr : 0 ≤ rows) (hr2 : rows < 2147483648)
    (hc : 0 ≤ cols) (hs : 1 ≤ size) (hfit : rows * cols < 2147483648) :
    total_cells rows cols size = rows * cols := by
  have hsz : ((size.toNat : Nat) : Int) = size := Int.toNat_of_nonneg (by omega)
  unfold total_cells all_cells
  rw [accumulate_cells hr hr2 hs hc hfit size.toNat (by omega), hsz, start_row_size hr hr2 hs]

/-- Witness of `total_cells_eq` at `rows = 10`, `cols = 4`, `size = 3`. -/
theorem total_cells_eq_witness :
    ((0 : Int) ≤ 10 ∧ (10 : Int) < 2147483648 ∧ (0 : Int) ≤ 4 ∧ (1 : Int) ≤ 3 ∧
      (10 : Int) * 4 < 2147483648) ∧
    total_cells 10 4 3 = 10 * 4 :=
  ⟨by decide,
   total_cells_eq 10 4 3 (by decide) (by decide) (by decide) (by decide) (by decide)⟩

/-! ## Metrics capture -/

/-- C6: for `size_t` readings `mem_before` and `mem_after`, `local_mem` of line
126 is `max 0 (mem_after - mem_before)` over the integers: the difference when
`mem_after > mem_before`, zero otherwise; it never exceeds `mem_after`, so it
is no wrapped value. -/
theorem local_mem_clamped (mem_before mem_after : Nat)
    (hb : mem_before < 18446744073709551616) (ha : mem_after < 18446744073709551616) :
    ((local_mem mem_before mem_after : Nat) : Int) =
      max 0 ((mem_after : Int) - (mem_before : Int)) ∧
    (mem_after > mem_before → local_mem mem_before mem_after = mem_after - mem_before) ∧
    (¬ mem_after > mem_before → local_mem mem_before mem_after = 0) ∧
    local_mem mem_before mem_after ≤ mem_after := by
  unfold local_mem wrap64
  refine ⟨?_, ?_, ?_, ?_⟩
  · split <;> omega
  · intro h
    rw [if_pos h]
    omega
  · intro h
    rw [if_neg h]
  · split <;> omega

/-- Witness of `local_mem_clamped` at readings 5000 and 3000 (memory shrank). -/
theorem local_mem_clamped_witness :
    (5000 < 18446744073709551616 ∧ 3000 < 18446744073709551616) ∧
    ((local_mem 5000 3000 : Nat) : Int) = max 0 (((3000 : Nat) : Int) - ((5000 : Nat) : Int)) ∧
    (3000 > 5000 → local_mem 5000 3000 = 3000 - 5000) ∧
    (¬ 3000 > 5000 → local_mem 5000 3000 = 0) ∧
    local_mem 5000 3000 ≤ 3000 :=
  ⟨by decide, local_mem_clamped 5000 3000 (by decide) (by decide)⟩

/-- C5, as stated, fails: rank 3 of five ranks on a 3-row grid has
`local_rows = 0`, yet `segment_image` is called on it and the rank reports the
measured time (5 ticks) and the measured memory delta (10 bytes). -/
theorem empty_band_counterexample :
    local_rows 3 5 3 = 0 ∧
    Event.segment_image 0 4 ∈ (main 6 3 5 (some ⟨3, 4, 16, 3⟩) 0 5 10 20).events ∧
    (main 6 3 5 (some ⟨3, 4, 16, 3⟩) 0 5 10 20).metrics =
      some { local_time := 5, local_mem := 10, local_cells := 0 } := by
  decide

/-- C5, amended: a rank whose `local_rows` is 0 (every rank `i >= rows` when
`size > rows`; for `rows = 3`, `size = 5` the counts are 1, 1, 1, 0, 0) still
calls `segment_image`, on a band of 0 rows, and reports `local_cells = 0`
together with the measured clock difference and the clamped memory
difference. -/
theorem empty_band_metrics (rank size : Int) (d : Image) (t0 t1 : Int)
    (mem_before mem_after : Nat) (h : local_rows d.rows size rank = 0) :
    Event.segment_image 0 d.cols ∈ (main 6 rank size (some d) t0 t1 mem_before mem_after).events ∧
    (main 6 rank size (some d) t0 t1 mem_before mem_after).metrics =
      some { local_time := t1 - t0, local_mem := local_mem mem_before mem_after,
             local_cells := 0 } ∧
    (∀ i : Int, 0 ≤ d.rows → d.rows < 2147483648 → d.rows < size → d.rows ≤ i →
      local_rows d.rows size i = 0) ∧
    (List.range 5).map (fun i : Nat => local_rows 3 5 (i : Int)) = [1, 1, 1, 0, 0] := by
  refine ⟨?_, ?_, ?_, by decide⟩
  · simp [main, h]
  · simp [main, local_cells, h, wrap32]
  · intro i hr hr2 hlt hi
    obtain ⟨h1, h2, h3, h4, h5, h6⟩ := div_mod_facts hr (by omega : (1 : Int) ≤ size)
    rw [local_rows_eq hr hr2 (by omega) (by omega), Int.ediv_eq_zero_of_lt hr hlt,
      Int.emod_eq_of_lt hr hlt]
    simp
    omega

/-- Witness of `empty_band_metrics` at rank 4 of five ranks on a 3 x 4 grid. -/
theorem empty_band_metrics_witness :
    local_rows 3 5 4 = 0 ∧
    Event.segment_image 0 4 ∈ (main 6 4 5 (some ⟨3, 4, 16, 3⟩) 100 180 7 9).events ∧
    (main 6 4 5 (some ⟨3, 4, 16, 3⟩) 100 180 7 9).metrics =
      some { local_time := 180 - 100, local_mem := local_mem 7 9, local_cells := 0 } ∧
    (∀ i : Int, (0 : Int) ≤ 3 → (3 : Int) < 2147483648 → 3 < (5 : Int) → 3 ≤ i →
      local_rows 3 5 i = 0) ∧
    (List.range 5).map (fun i : Nat => local_rows 3 5 (i : Int)) = [1, 1, 1, 0, 0] :=
  ⟨by decide, empty_band_metrics 4 5 ⟨3, 4, 16, 3⟩ 100 180 7 9 (by decide)⟩

/-! ## Exit codes -/

/-- C7: when `argc != 6`, or when the coordinator's `imread` gives an empty
image, the rank ends with exit code 1 and none of its steps is a send or a
receive; with `argc = 6` and a loaded image `main` runs to its last line and
returns 0, and a rank that got as far as the gathers of lines 147-149 returns
0. -/
theorem main_exit_code (argc rank size : Int) (img : Option Image) (t0 t1 : Int)
    (mem_before mem_after : Nat) :
    ((argc ≠ 6 ∨ img = none) →
      (main argc rank size img t0 t1 mem_before mem_after).exit.code = 1 ∧
      ∀ e ∈ (main argc rank size img t0 t1 mem_before mem_after).events,
        e.is_transport = false) ∧
    (argc = 6 → img ≠ none →
      (main argc rank size img t0 t1 mem_before mem_after).exit = Exit.returned 0) ∧
    (Event.gather ∈ (main argc rank size img t0 t1 mem_before mem_after).events →
      (main argc rank size img t0 t1 mem_before mem_after).exit.code = 0) := by
  refine ⟨?_, ?_, ?_⟩
  · intro h
    by_cases ha : argc = 6
    · have hi : img = none := by
        rcases h with h | h
        · exact absurd ha h
        · exact h
      subst hi
      by_cases hr : rank = 0 <;> simp [main, ha, hr, Exit.code, Event.is_transport]
    · by_cases hr : rank = 0 <;> simp [main, ha, hr, Exit.code, Event.is_transport]
  · intro ha hi
    cases img with
    | none => exact absurd rfl hi
    | some d => simp [main, ha]
  · intro hg
    by_cases ha : argc = 6
    · cases img with
      | none => by_cases hr : rank = 0 <;> simp [main, ha, hr] at hg
      | some d => simp [main, ha, Exit.code]
    · by_cases hr : rank = 0 <;> simp [main, ha, hr] at hg

/-- Witness of `main_exit_code`: four arguments instead of five, and an
unreadable input on the coordinator. -/
theorem main_exit_code_witness :
    (main 5 0 4 (some ⟨10, 4, 16, 3⟩) 0 0 0 0).exit.code = 1 ∧
    (main 6 0 4 none 0 0 0 0).events = [Event.load_error, Event.abort 1] ∧
    (main 6 2 4 (some ⟨10, 4, 16, 3⟩) 0 0 0 0).exit = Exit.returned 0 :=
  ⟨((main_exit_code 5 0 4 (some ⟨10, 4, 16, 3⟩) 0 0 0 0).1 (Or.inl (by decide))).1,
   by decide,
   (main_exit_code 6 2 4 (some ⟨10, 4, 16, 3⟩) 0 0 0 0).2.1 rfl (by simp)⟩

/-! ## Transport counts -/

/-- C9, as stated, fails: for a 40000 x 40000 grid of 3-byte elements and two
ranks, the band of rank 1 has 20000 * 40000 * 3 = 2400000000 bytes, but the
count the coordinator passes to its send at line 109, the first message of
the run, and the count rank 1 passes to its receive at line 113, is the `int`
-1894967296. -/
theorem transport_count_counterexample :
    local_rows 40000 2 1 * 40000 * 3 = 2400000000 ∧
    distribute_events 40000 40000 3 2 0 =
      [Event.copy_in 0 20000, Event.send 20000 (-1894967296) 1 0] ∧
    distribute_events 40000 40000 3 2 1 = [Event.recv 0 (-1894967296) 0 0] := by
  decide

/-- C9, amended: for `0 <= rows`, `0 <= cols`, `0 <= elemSize`, `1 <= size`,
provided the byte count `local_rows j * cols * elemSize` of every band that
travels as a message (`1 <= j < size`) is below `2^31`: the steps of the
coordinator are exactly the four broadcasts, the copy of its own rows
`[start_row 0, start_row 0 + local_rows 0)`, one send per rank `k >= 1` from
row `start_row k` of exactly `local_rows k * cols * elemSize` bytes (tag 0),
the barrier and the transform, the copy of its own output rows, one receive
per rank `k >= 1` at row `start_row k` of exactly as many bytes (tag 1), the
gathers and the end; the steps of a rank `1 <= i < size` are exactly one
receive and one send of `local_rows i * cols * elemSize` bytes with peer 0
around its transform.  Every message of the coordinator has a peer
`1 <= peer < size` and these arguments, so none has rank 0 as peer. -/
theorem transport_counts (rows cols elemSize size type t0 t1 : Int) (mem_before mem_after : Nat)
    (hr : 0 ≤ rows) (hr2 : rows < 2147483648) (hc : 0 ≤ cols) (he : 0 ≤ elemSize)
    (hs : 1 ≤ size)
    (hfit : ∀ j : Int, 1 ≤ j → j < size →
      local_rows rows size j * cols * elemSize < 2147483648) :
    (main 6 0 size (some ⟨rows, cols, type, elemSize⟩) t0 t1 mem_before mem_after).events =
      [Event.bcast, Event.bcast, Event.bcast, Event.bcast] ++
      (List.range size.toNat).map (fun (k : Nat) =>
        if (k : Int) = 0 then
          Event.copy_in (start_row rows size (k : Int)) (local_rows rows size (k : Int))
        else
          Event.send (start_row rows size (k : Int))
            (local_rows rows size (k : Int) * cols * elemSize) (k : Int) 0) ++
      [Event.barrier, Event.segment_image (local_rows rows size 0) cols] ++
      (Event.copy_out (start_row rows size 0) (local_rows rows size 0) ::
        (List.range' 1 (size.toNat - 1)).map (fun (k : Nat) =>
          Event.recv (start_row rows size (k : Int))
            (local_rows rows size (k : Int) * cols * elemSize) (k : Int) 1)) ++
      [Event.gather, Event.gather, Event.gather] ++ [Event.imwrite] ++ [Event.finalize] ∧
    (∀ i : Int, 1 ≤ i → i < size →
      (main 6 i size (some ⟨rows, cols, type, elemSize⟩) t0 t1 mem_before mem_after).events =
        [Event.bcast, Event.bcast, Event.bcast, Event.bcast,
         Event.recv 0 (local_rows rows size i * cols * elemSize) 0 0,
         Event.barrier, Event.segment_image (local_rows rows size i) cols,
         Event.send 0 (local_rows rows size i * cols * elemSize) 0 1,
         Event.gather, Event.gather, Event.gather, Event.finalize]) ∧
    (∀ row count dest tag, Event.send row count dest tag ∈
        (main 6 0 size (some ⟨rows, cols, type, elemSize⟩) t0 t1 mem_before mem_after).events →
      1 ≤ dest ∧ dest < size ∧ row = start_row rows size dest ∧
      count = local_rows rows size dest * cols * elemSize ∧ tag = 0) ∧
    (∀ row count source tag, Event.recv row count source tag ∈
        (main 6 0 size (some ⟨rows, cols, type, elemSize⟩) t0 t1 mem_before mem_after).events →
      1 ≤ source ∧ source < size ∧ row = start_row rows size source ∧
      count = local_rows rows size source * cols * elemSize ∧ tag = 1) := by
  have hbc : ∀ j : Int, 1 ≤ j → j < size →
      byte_count (local_rows rows size j) cols elemSize =
        local_rows rows size j * cols * elemSize := fun j h1 h2 =>
    byte_count_eq (local_rows_nonneg hr hr2 hs (by omega)) hc he (hfit j h1 h2)
  have hmsg : ∀ e, e ∈ (main 6 0 size (some ⟨rows, cols, type, elemSize⟩) t0 t1 mem_before
      mem_after).events → (∀ row count dest tag, e = Event.send row count dest tag →
        1 ≤ dest ∧ dest < size ∧ row = start_row rows size dest ∧
        count = byte_count (local_rows rows size dest) cols elemSize ∧ tag = 0) ∧
      (∀ row count source tag, e = Event.recv row count source tag →
        1 ≤ source ∧ source < size ∧ row = start_row rows size source ∧
        count = byte_count (local_rows rows size source) cols elemSize ∧ tag = 1) := by
    intro e hmem
    simp only [main, ne_eq, not_true_eq_false, if_false, if_true, List.mem_append] at hmem
    rcases hmem with (((((h | h) | h) | h) | h) | h) | h
    · simp only [List.mem_cons, List.mem_nil_iff, or_false, or_self] at h
      subst h
      exact ⟨fun _ _ _ _ h => (by cases h), fun _ _ _ _ h => (by cases h)⟩
    · exact coordinator_message e (Or.inl h)
    · simp only [List.mem_cons, List.mem_nil_iff, or_false] at h
      rcases h with h | h <;> subst h <;>
        exact ⟨fun _ _ _ _ h => (by cases h), fun _ _ _ _ h => (by cases h)⟩
    · exact coordinator_message e (Or.inr h)
    · simp only [List.mem_cons, List.mem_nil_iff, or_false, or_self] at h
      subst h
      exact ⟨fun _ _ _ _ h => (by cases h), fun _ _ _ _ h => (by cases h)⟩
    · rw [List.mem_singleton] at h
      subst h
      exact ⟨fun _ _ _ _ h => (by cases h), fun _ _ _ _ h => (by cases h)⟩
    · rw [List.mem_singleton] at h
      subst h
      exact ⟨fun _ _ _ _ h => (by cases h), fun _ _ _ _ h => (by cases h)⟩
  refine ⟨?_, ?_, ?_, ?_⟩
  · simp only [main, ne_eq, not_true_eq_false, if_false, if_true]
    rw [distribute_events_coordinator hr hr2 hc he hs hfit,
      collect_events_coordinator hr hr2 hc he hs hfit]
  · intro i hi hi2
    have hi0 : i ≠ 0 := by omega
    simp only [main, ne_eq, not_true_eq_false, if_false, distribute_events, collect_events,
      if_neg hi0, hbc i hi hi2]
    rfl
  · intro row count dest tag hmem
    obtain ⟨h1, h2, h3, h4, h5⟩ := (hmsg _ hmem).1 row count dest tag rfl
    exact ⟨h1, h2, h3, h4.trans (hbc dest h1 h2), h5⟩
  · intro row count source tag hmem
    obtain ⟨h1, h2, h3, h4, h5⟩ := (hmsg _ hmem).2 row count source tag rfl
    exact ⟨h1, h2, h3, h4.trans (hbc source h1 h2), h5⟩

/-- Witness of `transport_counts` at a 10 x 4 grid of 3-byte elements and three
ranks: the steps of the coordinator and of rank 2. -/
theorem transport_counts_witness :
    ((0 : Int) ≤ 10 ∧ (10 : Int) < 2147483648 ∧ (0 : Int) ≤ 4 ∧ (0 : Int) ≤ 3 ∧ (1 : Int) ≤ 3 ∧
      local_rows 10 3 1 * 4 * 3 < 2147483648 ∧ local_rows 10 3 2 * 4 * 3 < 2147483648) ∧
    (main 6 0 3 (some ⟨10, 4, 16, 3⟩) 0 0 0 0).events =
      [Event.bcast, Event.bcast, Event.bcast, Event.bcast,
       Event.copy_in 0 4, Event.send 4 36 1 0, Event.send 7 36 2 0,
       Event.barrier, Event.segment_image 4 4,
       Event.copy_out 0 4, Event.recv 4 36 1 1, Event.recv 7 36 2 1,
       Event.gather, Event.gather, Event.gather, Event.imwrite, Event.finalize] ∧
    (main 6 2 3 (some ⟨10, 4, 16, 3⟩) 0 0 0 0).events =
      [Event.bcast, Event.bcast, Event.bcast, Event.bcast,
       Event.recv 0 36 0 0, Event.barrier, Event.segment_image 3 4, Event.send 0 36 0 1,
       Event.gather, Event.gather, Event.gather, Event.finalize] :=
  ⟨by decide,
   (transport_counts 10 4 3 3 16 0 0 0 0 (by decide) (by decide) (by decide) (by decide)
      (by decide)
      (fun j h1 h2 => by
        have hj : j = 1 ∨ j = 2 := by omega
        rcases hj with hj | hj <;> subst hj <;> decide)).1.trans (by decide),
   ((transport_counts 10 4 3 3 16 0 0 0 0 (by decide) (by decide) (by decide) (by decide)
      (by decide)
      (fun j h1 h2 => by
        have hj : j = 1 ∨ j = 2 := by omega
        rcases hj with hj | hj <;> subst hj <;> decide)).2.1 2 (by decide) (by decide)).trans
     (by decide)⟩

/-! ## Reassembly of the output grid -/

/-- C3, as stated, fails: for a 40000 x 40000 grid of 3-byte elements and two
ranks the band of rank 1 has 2400000000 bytes, the `int` count of its send
is negative, and no output grid is assembled. -/
theorem reassembly_counterexample :
    (List.replicate 4800000000 (0 : Nat)).length = (40000 : Int).toNat * step 40000 3 ∧
    byte_count (local_rows 40000 2 1) 40000 3 = -1894967296 ∧
    run 40000 40000 3 2 (fun l => l) (List.replicate 4800000000 (0 : Nat)) (fun _ _ => 0)
      (fun _ => 0) = none :=
  ⟨(List.length_replicate 4800000000 (0 : Nat)).trans (by decide), by decide,
    run_none_of_negative_count _ _ _ _⟩

/-- C3, amended: for a row-major grid of `rows x cols` elements of `elemSize`
bytes, `size >= 1` ranks and a transform that keeps the shape of its band,
provided the byte count `local_rows i * cols * elemSize` of every band that
travels as a message (`1 <= i < size`) is below `2^31`, the collect phase
yields an output grid of the size of the input that is the concatenation, in
rank order, of the transform applied to band `i` = rows
`[start_row i, start_row i + local_rows i)` of the input; with the identity
transform the output is the input byte for byte, and every row lies in the
band of exactly one rank. -/
theorem reassembly {α : Type} (rows cols elemSize size : Int) (transform : List α → List α)
    (input_img : List α) (local_uninit : Nat → Nat → α) (output_uninit : Nat → α)
    (hr : 0 ≤ rows) (hr2 : rows < 2147483648) (hc : 0 ≤ cols) (he : 0 ≤ elemSize)
    (hs : 1 ≤ size) (hlen : input_img.length = rows.toNat * step cols elemSize)
    (hshape : ∀ l, (transform l).length = l.length)
    (hfit : ∀ i : Int, 1 ≤ i → i < size →
      local_rows rows size i * cols * elemSize < 2147483648) :
    run rows cols elemSize size transform input_img local_uninit output_uninit =
      some ((List.range size.toNat).flatMap
        (fun i => transform (band rows cols elemSize size input_img i))) ∧
    ((List.range size.toNat).flatMap
      (fun i => transform (band rows cols elemSize size input_img i))).length =
        input_img.length ∧
    ((∀ l, transform l = l) →
      run rows cols elemSize size transform input_img local_uninit output_uninit =
        some input_img) ∧
    (∀ row : Int, 0 ≤ row → row < rows →
      ∃! i : Int, 0 ≤ i ∧ i < size ∧ start_row rows size i ≤ row ∧
        row < start_row rows size i + local_rows rows size i) := by
  have hsz : ((size.toNat : Nat) : Int) = size := Int.toNat_of_nonneg (by omega)
  have hpos : 0 < size.toNat := by omega
  have hend : (start_row rows size ((size.toNat : Nat) : Int)).toNat = rows.toNat := by
    rw [hsz, start_row_size hr hr2 hs]
  have hrun : run rows cols elemSize size transform input_img local_uninit output_uninit =
      some ((List.range size.toNat).flatMap
        (fun i => transform (band rows cols elemSize size input_img i))) := by
    unfold run
    rw [distribute_all_eq hr hr2 hc he hs input_img local_uninit hlen hfit size.toNat
      (by omega)]
    simp only [List.map_map]
    have hc2 := collect_eq hr hr2 hc he hs transform hshape input_img output_uninit hlen hfit
      size.toNat (by omega) (size.toNat - 1) (by omega)
    have hcomp : (transform ∘ band rows cols elemSize size input_img) =
        (fun k => transform (band rows cols elemSize size input_img k)) := rfl
    rw [hcomp, hc2, Nat.sub_add_cancel hpos, hend,
      List.drop_eq_nil_of_le (le_of_eq (length_alloc output_uninit rows cols elemSize)),
      List.append_nil]
  have hlen2 := length_bands hr hr2 hs transform hshape input_img hlen size.toNat (by omega)
  refine ⟨hrun, ?_, ?_, ?_⟩
  · rw [hlen2, hend, hlen]
  · intro hid
    rw [hrun]
    have hfun : (fun i => transform (band rows cols elemSize size input_img i)) =
        (fun i => band rows cols elemSize size input_img i) := by
      funext i
      exact hid _
    rw [hfun, bands_eq_take hr hr2 hs input_img size.toNat (by omega), hend,
      List.take_of_length_le (le_of_eq hlen)]
  · intro row h0 h1
    exact row_in_one_band hr hr2 hs row h0 h1

/-- Witness of `reassembly`: a 3 x 2 grid of 1-byte elements, two ranks, and a
transform that adds 10 to every byte. -/
theorem reassembly_witness :
    ((0 : Int) ≤ 3 ∧ (3 : Int) < 2147483648 ∧ (0 : Int) ≤ 2 ∧ (0 : Int) ≤ 1 ∧ (1 : Int) ≤ 2 ∧
      [1, 2, 3, 4, 5, 6].length = (3 : Int).toNat * step 2 1 ∧
      local_rows 3 2 1 * 2 * 1 < 2147483648) ∧
    (∀ l : List Nat, (l.map (fun b => b + 10)).length = l.length) ∧
    run 3 2 1 2 (fun l => l.map (fun b => b + 10)) [1, 2, 3, 4, 5, 6] (fun _ _ => 0)
        (fun _ => 0) =
      some ((List.range (2 : Int).toNat).flatMap
        (fun i => (band 3 2 1 2 [1, 2, 3, 4, 5, 6] i).map (fun b => b + 10))) ∧
    (List.range (2 : Int).toNat).flatMap
        (fun i => (band 3 2 1 2 [1, 2, 3, 4, 5, 6] i).map (fun b => b + 10)) =
      [11, 12, 13, 14, 15, 16] :=
  ⟨by decide, fun l => List.length_map l _,
   (reassembly 3 2 1 2 (fun l => l.map (fun b => b + 10)) [1, 2, 3, 4, 5, 6] (fun _ _ => 0)
      (fun _ => 0) (by decide) (by decide) (by decide) (by decide) (by decide) (by decide)
      (fun l => by simp)
      (fun i h1 h2 => by
        have hi : i = 1 := by omega
        subst hi
        decide)).1,
   by decide⟩

/-! ## Aggregation of the gathered metrics -/

end Segment
